import Mathlib

/-!
Verification of the price-card batch renderer (src/index.js).

The development shallowly embeds the application logic of the pipeline:
product records, the pending filter, the Arabic digit formatter, the
price formatting, the request handler of the page server, the
round-robin work partitioner, the orchestrator effect structure, and
the completion-message protocol of the worker pool.  Prices are
modelled as exact rationals.
-/

namespace PriceCards

/-- Product record as stored in products.json: a product code, an optional
variation suffix, the current price and the optional previous price. -/
structure Product where
  productCode : String
  variation_suffix : Option String
  current_price : ℚ
  previous_price : Option ℚ
deriving DecidableEq

/-- HTTP response of the page server: status code and body. -/
structure HttpResponse where
  status : ℕ
  body : String
deriving DecidableEq

/-- Truthiness of the optional variation suffix in JS: absent (undefined)
and the empty string are falsy, every other string is truthy.  Embeds the
tests of the form `if (product.variation_suffix)` in src/index.js. -/
def truthySuffix : Option String → Bool
  | none => false
  | some s => !(s == "")

/-- The ten Western digit characters, the character class of the regex
used by convertToArabicDigits. -/
def digitChars : List Char := ['0', '1', '2', '3', '4', '5', '6', '7', '8', '9']

/-- Replacement of one character performed by the regex replace in
convertToArabicDigits (src/index.js line 142): each Western digit is sent
to its Arabic-indic glyph, every other character is left unchanged. -/
def arabicDigitOf (c : Char) : Char :=
  match c with
  | '0' => '٠'
  | '1' => '١'
  | '2' => '٢'
  | '3' => '٣'
  | '4' => '٤'
  | '5' => '٥'
  | '6' => '٦'
  | '7' => '٧'
  | '8' => '٨'
  | '9' => '٩'
  | c => c

/-- convertToArabicDigits (src/index.js lines 140-143): replaces every
Western digit of the string by its Arabic-indic glyph. -/
def convertToArabicDigits (num : String) : String :=
  String.mk (num.data.map arabicDigitOf)

/-- Inverse glyph table of the round-trip property stated by the spec:
sends each Arabic-indic digit glyph back to its Western digit and leaves
every other character unchanged. -/
def westernDigitOf (c : Char) : Char :=
  match c with
  | '٠' => '0'
  | '١' => '1'
  | '٢' => '2'
  | '٣' => '3'
  | '٤' => '4'
  | '٥' => '5'
  | '٦' => '6'
  | '٧' => '7'
  | '٨' => '8'
  | '٩' => '9'
  | c => c

/-- Mapping a string back through the inverse glyph table (spec round-trip
property). -/
def convertFromArabicDigits (s : String) : String :=
  String.mk (s.data.map westernDigitOf)

/-- productsToProcess (src/index.js lines 146-151): keeps the records whose
previous_price is null or undefined, or differs from current_price. -/
def productsToProcess (productsData : List Product) : List Product :=
  productsData.filter (fun product =>
    decide (product.previous_price = none ∨
      product.previous_price ≠ some product.current_price))

/-- updatedProducts (src/index.js lines 288-293): every record of the
collection with its previous_price set equal to its current_price. -/
def updatedProducts (productsData : List Product) : List Product :=
  productsData.map (fun product => { product with previous_price := some product.current_price })

/-- Image file name computed by the /product/:index route
(src/index.js lines 173-179). -/
def imageFileName (product : Product) : String :=
  if truthySuffix product.variation_suffix then
    product.productCode ++ "_" ++ product.variation_suffix.getD "" ++ ".jpg"
  else
    product.productCode ++ ".jpg"

/-- Numeric value of a digit character, as used when accumulating the
integer value of a parsed digit sequence.  Hexadecimal letters are also
given their value, for the hexadecimal branch of parseInt. -/
def digitVal (c : Char) : ℕ :=
  match c with
  | '0' => 0
  | '1' => 1
  | '2' => 2
  | '3' => 3
  | '4' => 4
  | '5' => 5
  | '6' => 6
  | '7' => 7
  | '8' => 8
  | '9' => 9
  | 'a' => 10
  | 'A' => 10
  | 'b' => 11
  | 'B' => 11
  | 'c' => 12
  | 'C' => 12
  | 'd' => 13
  | 'D' => 13
  | 'e' => 14
  | 'E' => 14
  | 'f' => 15
  | 'F' => 15
  | _ => 0

/-- The hexadecimal digit characters: the decimal digits and the letters
of either case up to f. -/
def hexChars : List Char :=
  digitChars ++ ['a', 'b', 'c', 'd', 'e', 'f'] ++ ['A', 'B', 'C', 'D', 'E', 'F']

/-- Value of a digit sequence in base 10. -/
def decDigitsVal (l : List Char) : ℕ :=
  l.foldl (fun a c => a * 10 + digitVal c) 0

/-- Value of a digit sequence in base 16. -/
def hexDigitsVal (l : List Char) : ℕ :=
  l.foldl (fun a c => a * 16 + digitVal c) 0

/-- JS whitespace characters stripped by parseInt before parsing. -/
def jsWhitespace (c : Char) : Bool :=
  c == ' ' || c == '\t' || c == '\n' || c == '\r' || c == '\x0b' || c == '\x0c'

/-- Decimal branch of parseInt: the longest leading run of decimal digits,
NaN (none) when it is empty. -/
def parseDec (sign : Int) (l : List Char) : Option Int :=
  let ds := l.takeWhile (fun c => decide (c ∈ digitChars))
  if ds = [] then none else some (sign * (decDigitsVal ds : Int))

/-- Hexadecimal branch of parseInt, entered after a 0x or 0X prefix. -/
def parseHex (sign : Int) (l : List Char) : Option Int :=
  let ds := l.takeWhile (fun c => decide (c ∈ hexChars))
  if ds = [] then none else some (sign * (hexDigitsVal ds : Int))

/-- parseInt after the optional sign: a leading 0x or 0X selects radix 16,
otherwise the string is read in radix 10 (ECMA parseInt with no radix
argument, as called on src/index.js line 166). -/
def parseIntAfterSign (sign : Int) (l : List Char) : Option Int :=
  match l with
  | '0' :: 'x' :: rest => parseHex sign rest
  | '0' :: 'X' :: rest => parseHex sign rest
  | l => parseDec sign l

/-- JS parseInt with no radix argument (ECMA): strip leading whitespace,
read an optional sign, then parse in radix 16 after a 0x or 0X prefix and
in radix 10 otherwise; none models NaN. -/
def jsParseInt (s : String) : Option Int :=
  match s.data.dropWhile jsWhitespace with
  | '-' :: rest => parseIntAfterSign (-1) rest
  | '+' :: rest => parseIntAfterSign 1 rest
  | l => parseIntAfterSign 1 l

/-- Number.prototype.toFixed(2) on an exact rational price
(src/index.js line 182): the nearest two-decimal value, ties away from
zero on the magnitude, printed with exactly two digits after the point. -/
def toFixed2 (x : ℚ) : String :=
  let n : ℕ := (Int.floor (|x| * 100 + 1 / 2)).toNat
  (if x < 0 then "-" else "") ++ Nat.repr (n / 100) ++ "." ++
    (if n % 100 < 10 then "0" else "") ++ Nat.repr (n % 100)

/-- The part of the htmlTemplate string (src/index.js lines 45-137) before
the imageUrl interpolation point. -/
def htmlTemplatePre : String :=
  "\n  <!DOCTYPE html>\n  <html lang=\"ar\" dir=\"rtl\">\n    <head>\n      <meta charset=\"UTF-8\" />\n      <meta name=\"viewport\" content=\"width=device-width, initial-scale=1.0\" />\n      <title>بطاقة المنتج</title>\n      <style>\n        * \x7b\n          margin: 0;\n          padding: 0;\n          box-sizing: border-box;\n          font-family: \x27Arial\x27, sans-serif;\n        \x7d\n        \n        body \x7b\n          background-color: white;\n          margin: 0;\n          padding: 0;\n          width: 100vw;\n          height: 100vh;\n          overflow: hidden;\n          display: grid;\n          place-items: center;\n        \x7d\n        \n        .product-card \x7b\n          width: 100dvw;\n          height: 100dvh;\n          position: relative;\n          overflow: hidden;\n          background: transparent;\n          border-radius: 10px;\n        \x7d\n        \n        .product-image \x7b\n          width: 100%;\n          height: 100%;\n          position: relative;\n        \x7d\n        \n        .product-image img \x7b\n          width: 100%;\n          height: 100%;\n          object-fit: contain;\n        \x7d\n        \n        /* Larger circular price tag with rotation */\n        .price-circle \x7b\n          position: absolute;\n          top: 200px;\n          right: 30px;\n          width: 150px;\n          height: 150px;\n          background-color: black;\n          border: 5px solid white;\n          border-radius: 50%;\n          display: flex;\n          flex-direction: column;\n          justify-content: center;\n          align-items: center;\n          color: white;\n          font-weight: bold;\n          z-index: 10;\n          box-shadow: 0 6px 12px rgba(0, 0, 0, 0.4);\n          transform: rotate(30deg);\n        \x7d\n        \n        .price-value \x7b\n          font-size: 36px;\n          line-height: 1;\n          margin-bottom: 4px;\n          text-shadow: 0 1px 2px rgba(0, 0, 0, 0.2);\n        \x7d\n        \n        .price-currency \x7b\n          font-size: 24px;\n          text-shadow: 0 1px 2px rgba(0, 0, 0, 0.2);\n        \x7d\n      </style>\n    </head>\n    <body>\n      <div class=\"product-card\">\n        <div class=\"product-image\">\n          <img src=\""

/-- The part of the htmlTemplate string between the imageUrl and the
priceInArabic interpolation points. -/
def htmlTemplateMid : String :=
  "\" alt=\"صورة المنتج\" />\n          <div class=\"price-circle\">\n            <div class=\"price-value\">"

/-- The part of the htmlTemplate string after the priceInArabic
interpolation point. -/
def htmlTemplatePost : String :=
  "</div>\n          </div>\n        </div>\n      </div>\n    </body>\n  </html>\n  "

/-- Rendering of the template (ejs.render on src/index.js line 186): the
template text with the image URL and the Arabic price substituted at the
two interpolation points. -/
def renderTemplate (imageUrl priceInArabic : String) : String :=
  htmlTemplatePre ++ imageUrl ++ htmlTemplateMid ++ priceInArabic ++ htmlTemplatePost

/-- Handler of GET /product/:index (src/index.js lines 165-190): parse the
index with parseInt; answer 404 when it is NaN, negative or at least the
collection length; otherwise render the template for the record at that
index, with its image file name and its price formatted by toFixed(2) and
converted to Arabic digits. -/
def handleProductRequest (productsData : List Product) (indexParam : String) : HttpResponse :=
  match jsParseInt indexParam with
  | none => { status := 404, body := "Product not found" }
  | some productIndex =>
    if h : productIndex < 0 ∨ (productsData.length : Int) ≤ productIndex then
      { status := 404, body := "Product not found" }
    else
      let product := productsData.get ⟨productIndex.toNat, by push_neg at h; omega⟩
      { status := 200,
        body := renderTemplate ("/images/" ++ imageFileName product)
          (convertToArabicDigits (toFixed2 product.current_price)) }

/-- Work item built by chunkArray: a product paired with the index found
for it in the full collection (src/index.js lines 209-216). -/
structure WorkItem where
  index : Int
  product : Product
deriving DecidableEq

/-- The predicate passed to findIndex in chunkArray (src/index.js lines
210-214): same productCode, and the variation suffixes are equal or both
falsy (absent or empty). -/
def sameKey (p item : Product) : Bool :=
  p.productCode == item.productCode &&
    (p.variation_suffix == item.variation_suffix ||
      (!truthySuffix p.variation_suffix && !truthySuffix item.variation_suffix))

/-- Index of the first element satisfying the predicate, if any. -/
def findIdxJS (p : α → Bool) : List α → Option ℕ
  | [] => none
  | x :: xs => if p x then some 0 else (findIdxJS p xs).map (· + 1)

/-- JS Array.prototype.findIndex: index of the first element satisfying
the predicate, and -1 when there is none. -/
def findIndexJS (p : α → Bool) (l : List α) : Int :=
  match findIdxJS p l with
  | some n => (n : Int)
  | none => -1

/-- The work item pushed by chunkArray for one pending product: the
product together with the index findIndex locates for its identity key in
the full collection (src/index.js lines 209-216). -/
def mkWorkItem (productsData : List Product) (item : Product) : WorkItem :=
  { index := findIndexJS (fun p => sameKey p item) productsData, product := item }

/-- One push of chunkArray: appends x at the end of the i-th chunk
(chunks[i].push(...) on src/index.js line 209). -/
def pushAt (chunks : List (List α)) (i : ℕ) (x : α) : List (List α) :=
  chunks.set i (chunks.getD i [] ++ [x])

/-- The forEach loop of chunkArray (src/index.js lines 207-217): the
element at overall position idx is pushed onto chunk idx % K. -/
def distribRR (K : ℕ) : List α → ℕ → List (List α) → List (List α)
  | [], _, chunks => chunks
  | x :: xs, idx, chunks => distribRR K xs (idx + 1) (pushAt chunks (idx % K) x)

/-- chunkArray (src/index.js lines 205-219): chunkCount initially empty
chunks, each pending product wrapped into its work item and pushed onto
chunk (position mod chunkCount). -/
def chunkArray (productsData : List Product) (array : List Product) (chunkCount : ℕ) :
    List (List WorkItem) :=
  distribRR chunkCount (array.map (mkWorkItem productsData)) 0
    (List.replicate chunkCount [])

/-- The sublist of elements whose overall position p (counted from start
index i) satisfies (i + p) % K = j.  Characterizes the content of chunk j
of the round-robin distribution. -/
def modSlice (K j : ℕ) : ℕ → List α → List α
  | _, [] => []
  | i, x :: xs => if i % K = j then x :: modSlice K j (i + 1) xs else modSlice K j (i + 1) xs

/-- Re-merging round-robin groups, as the spec round-trip property states
it: repeatedly take the first remaining element of each group in group
order, until all groups are exhausted. -/
def roundRobinMerge (chunks : List (List α)) : List α :=
  if h : chunks.all List.isEmpty then []
  else (chunks.filterMap List.head?) ++ roundRobinMerge (chunks.map List.tail)
termination_by (chunks.map List.length).sum
decreasing_by
  simp_wf
  revert h
  induction chunks with
  | nil => intro h; simp at h
  | cons c cs ih =>
    intro h
    simp only [List.all_cons, Bool.and_eq_true, not_and_or] at h
    simp only [List.map_cons, List.sum_cons, Function.comp_apply]
    have hle : (cs.map (List.length ∘ List.tail)).sum ≤ (cs.map List.length).sum := by
      clear h ih
      induction cs with
      | nil => simp
      | cons d ds ihd =>
        simp only [List.map_cons, List.sum_cons, Function.comp_apply]
        have := List.length_tail d
        omega
    rcases h with h | h
    · have hc : c ≠ [] := by
        cases c
        · simp at h
        · simp
      have h2 : 0 < c.length := List.length_pos.mpr hc
      have h1 : c.tail.length = c.length - 1 := List.length_tail c
      omega
    · have hlt := ih h
      have h1 : c.tail.length ≤ c.length := by
        rw [List.length_tail]
        omega
      omega

/-- Effects performed by one run of main (src/index.js lines 222-298):
whether the server was started, how many workers were spawned (one per
non-empty chunk), and the collection written back to the store file, if
any. -/
structure RunEffects where
  serverStarted : Bool
  workersSpawned : ℕ
  storeWrite : Option (List Product)
deriving DecidableEq

/-- Effect structure of main (src/index.js lines 222-298), assuming every
spawned worker eventually posts DONE: an empty pending list returns before
the server is started and before the store is touched; otherwise the
server starts, one worker is spawned per non-empty chunk, and the store is
rewritten with updatedProducts. -/
def runMain (productsData : List Product) (numWorkers : ℕ) : RunEffects :=
  if (productsToProcess productsData).length = 0 then
    { serverStarted := false, workersSpawned := 0, storeWrite := none }
  else
    { serverStarted := true,
      workersSpawned :=
        ((chunkArray productsData (productsToProcess productsData) numWorkers).filter
          (fun chunk => !(chunk.length == 0))).length,
      storeWrite := some (updatedProducts productsData) }

/-- One message event received by the orchestrator: the index of the
sending worker and the message text. -/
abbrev WorkerEvent := ℕ × String

/-- Number of DONE messages in a trace of worker events: the value of the
completedWorkers counter (src/index.js lines 254-262) after the trace. -/
def doneCount (trace : List WorkerEvent) : ℕ :=
  (trace.filter (fun e => e.2 == "DONE")).length

/-- The workerPromise (src/index.js lines 242-275) has resolved by the end
of the trace: at some point of the trace the completedWorkers counter,
which counts DONE messages, reached the number W of spawned workers.  The
orchestrator closes the server and persists the store only after this
(src/index.js lines 278-296).  There is no timeout: no other condition
resolves the promise. -/
def awaitResolved (W : ℕ) (trace : List WorkerEvent) : Prop :=
  ∃ t, t <+: trace ∧ doneCount t = W


/-- The DONE events of a trace. -/
def doneEvents (trace : List WorkerEvent) : List WorkerEvent :=
  trace.filter (fun e => e.2 == "DONE")

/-- The worker indices of the DONE events of a trace, in order. -/
def doneIds (trace : List WorkerEvent) : List ℕ :=
  (doneEvents trace).map Prod.fst

/-! ## Sample records used by witnesses -/

/-- Sample record with no previous price (pending). -/
def prodA : Product :=
  { productCode := "A", variation_suffix := none, current_price := 1, previous_price := none }

/-- Sample record whose previous price equals its current price (caught up). -/
def prodB : Product :=
  { productCode := "B", variation_suffix := some "v", current_price := 2, previous_price := some 2 }

/-- Sample record whose previous price differs from its current price. -/
def prodC : Product :=
  { productCode := "C", variation_suffix := none, current_price := 3, previous_price := some 1 }

/-- Sample record with the price of the spec example. -/
def prodX : Product :=
  { productCode := "X1", variation_suffix := none, current_price := 19.9, previous_price := none }

/-! ## C1: the pending filter -/

/-- C1: productsToProcess returns exactly the records whose previous_price
is absent or differs from current_price, excludes every record whose
previous_price equals its current_price, and preserves the relative order
of the input collection (it is a sublist of it). -/
theorem productsToProcess_exact (productsData : List Product) :
    List.Sublist (productsToProcess productsData) productsData ∧
    ∀ p : Product, p ∈ productsToProcess productsData ↔
      p ∈ productsData ∧
        (p.previous_price = none ∨ p.previous_price ≠ some p.current_price) := by
  refine ⟨List.filter_sublist _, fun p => ?_⟩
  simp [productsToProcess, List.mem_filter]

/-! ## C2: the persisted collection -/

/-- C2: updatedProducts has the same length and order as the loaded
collection, and each of its records equals the corresponding loaded record
except that previous_price is set equal to current_price, for every
record. -/
theorem updatedProducts_pointwise (productsData : List Product) :
    (updatedProducts productsData).length = productsData.length ∧
    ∀ i : ℕ, i < productsData.length →
      ∃ p q : Product, productsData[i]? = some p ∧
        (updatedProducts productsData)[i]? = some q ∧
        q.productCode = p.productCode ∧ q.variation_suffix = p.variation_suffix ∧
        q.current_price = p.current_price ∧ q.previous_price = some p.current_price := by
  refine ⟨by simp [updatedProducts], fun i hi => ?_⟩
  have ha : productsData[i]? = some (productsData.get ⟨i, hi⟩) := by
    simp [List.getElem?_eq_getElem hi]
  have hb : (updatedProducts productsData)[i]? =
      some { productsData.get ⟨i, hi⟩ with
        previous_price := some (productsData.get ⟨i, hi⟩).current_price } := by
    show (productsData.map _)[i]? = _
    rw [List.getElem?_map, ha]
    rfl
  exact ⟨_, _, ha, hb, rfl, rfl, rfl, rfl⟩

/-- Witness for C2 at the one-record collection [prodA], index 0. -/
theorem updatedProducts_pointwise_witness :
    (0 : ℕ) < ([prodA] : List Product).length ∧
    ((updatedProducts [prodA]).length = ([prodA] : List Product).length ∧
      ∃ p q : Product, ([prodA] : List Product)[0]? = some p ∧
        (updatedProducts [prodA])[0]? = some q ∧
        q.productCode = p.productCode ∧ q.variation_suffix = p.variation_suffix ∧
        q.current_price = p.current_price ∧ q.previous_price = some p.current_price) :=
  ⟨by decide, (updatedProducts_pointwise [prodA]).1,
    (updatedProducts_pointwise [prodA]).2 0 (by decide)⟩

/-! ## C7: empty pending list short-circuits the run -/

/-- C7: when the pending selection is empty, the run starts no server,
spawns no worker and does not write the store file. -/
theorem runMain_no_pending (productsData : List Product) (numWorkers : ℕ)
    (h : productsToProcess productsData = []) :
    runMain productsData numWorkers =
      { serverStarted := false, workersSpawned := 0, storeWrite := none } := by
  simp [runMain, h]

/-- Witness for C7 at a collection whose single record is caught up. -/
theorem runMain_no_pending_witness :
    productsToProcess [prodB] = [] ∧
    runMain [prodB] 4 = { serverStarted := false, workersSpawned := 0, storeWrite := none } :=
  ⟨by decide, runMain_no_pending [prodB] 4 (by decide)⟩

/-! ## C4: Arabic digit formatter round trip -/

/-- A character of the allowed alphabet survives the glyph round trip. -/
theorem westernDigitOf_arabicDigitOf (c : Char) (hc : c ∈ digitChars ∨ c = '.') :
    westernDigitOf (arabicDigitOf c) = c := by
  rcases hc with hc | rfl
  · simp only [digitChars, List.mem_cons, List.not_mem_nil, or_false] at hc
    rcases hc with rfl | rfl | rfl | rfl | rfl | rfl | rfl | rfl | rfl | rfl <;> rfl
  · rfl

/-- C4: on strings of Western digits and the decimal separator, the
formatter maps each digit to its Arabic-indic glyph, leaves the separator
unchanged, and mapping the output back through the inverse glyph table
recovers the input exactly. -/
theorem convertToArabicDigits_roundtrip (s : String)
    (h : ∀ c ∈ s.data, c ∈ digitChars ∨ c = '.') :
    (convertToArabicDigits s).length = s.length ∧
    (∀ i : ℕ, i < s.data.length →
      ∃ a b : Char, s.data[i]? = some a ∧ (convertToArabicDigits s).data[i]? = some b ∧
        b = arabicDigitOf a ∧ (a = '.' → b = '.')) ∧
    convertFromArabicDigits (convertToArabicDigits s) = s := by
  refine ⟨?_, fun i hi => ?_, ?_⟩
  · show (s.data.map arabicDigitOf).length = s.data.length
    exact List.length_map _ _
  · have ha : s.data[i]? = some (s.data.get ⟨i, hi⟩) := by
      simp [List.getElem?_eq_getElem hi]
    have hb : (convertToArabicDigits s).data[i]? =
        some (arabicDigitOf (s.data.get ⟨i, hi⟩)) := by
      show (s.data.map arabicDigitOf)[i]? = _
      rw [List.getElem?_map, ha]
      rfl
    exact ⟨_, _, ha, hb, rfl, fun hdot => by rw [hdot]; rfl⟩
  · have : ∀ l : List Char, (∀ c ∈ l, c ∈ digitChars ∨ c = '.') →
        l.map (fun c => westernDigitOf (arabicDigitOf c)) = l := by
      intro l hl
      induction l with
      | nil => rfl
      | cons c cs ih =>
        simp only [List.map_cons, List.cons.injEq]
        exact ⟨westernDigitOf_arabicDigitOf c (hl c (by simp)),
          ih (fun d hd => hl d (by simp [hd]))⟩
    cases s with
    | mk data =>
      simpa [convertFromArabicDigits, convertToArabicDigits, List.map_map,
        Function.comp] using congrArg String.mk (this data h)

/-- Witness for C4 at the string of the spec example. -/
theorem convertToArabicDigits_roundtrip_witness :
    (∀ c ∈ "19.90".data, c ∈ digitChars ∨ c = '.') ∧
    convertFromArabicDigits (convertToArabicDigits "19.90") = "19.90" :=
  ⟨by decide, (convertToArabicDigits_roundtrip "19.90" (by decide)).2.2⟩

/-! ## C6: invalid index responses -/

/-- Counterexample for C6: the not-found response does carry body content,
the fixed text of src/index.js line 168. -/
theorem response404_body_not_empty :
    handleProductRequest [] "0" = { status := 404, body := "Product not found" } ∧
    "Product not found" ≠ "" := by
  exact ⟨by decide, by decide⟩

/-- C6 as amended: an out-of-range or non-numeric index parameter gets a
not-found status whose body is the fixed text Product not found (the code
does send that body, so the response is not body-less). -/
theorem handleProduct_invalid_index (productsData : List Product) (indexParam : String)
    (h : jsParseInt indexParam = none ∨
      ∃ i : Int, jsParseInt indexParam = some i ∧
        (i < 0 ∨ (productsData.length : Int) ≤ i)) :
    handleProductRequest productsData indexParam =
      { status := 404, body := "Product not found" } := by
  rcases h with h | ⟨i, hi, hrange⟩
  · simp [handleProductRequest, h]
  · simp only [handleProductRequest, hi]
    rw [dif_pos hrange]

/-- Witness for C6 as amended, at a non-numeric parameter. -/
theorem handleProduct_invalid_index_witness :
    jsParseInt "abc" = none ∧
    handleProductRequest [] "abc" = { status := 404, body := "Product not found" } :=
  ⟨by decide, handleProduct_invalid_index [] "abc" (Or.inl (by decide))⟩


/-! ## C5 and C10: the valid-index response -/

/-- Shared helper: when the parameter parses to a valid index i, the
handler answers 200 with the rendered template for record i. -/
theorem handleProduct_ok (productsData : List Product) (indexParam : String) (i : ℕ)
    (hparse : jsParseInt indexParam = some (i : Int)) (hi : i < productsData.length) :
    handleProductRequest productsData indexParam =
      { status := 200,
        body := renderTemplate ("/images/" ++ imageFileName (productsData.get ⟨i, hi⟩))
          (convertToArabicDigits (toFixed2 (productsData.get ⟨i, hi⟩).current_price)) } := by
  have hcond : ¬ ((i : Int) < 0 ∨ (productsData.length : Int) ≤ (i : Int)) := by
    push_neg
    constructor
    · exact Int.natCast_nonneg i
    · exact_mod_cast hi
  simp only [handleProductRequest, hparse]
  rw [dif_neg hcond]
  congr 2

/-- C5: a request whose parameter parses to a valid index i is answered
with success status; the body embeds the image path for record i
(productCode, with the variation suffix when present), and the
Arabic-digit rendering of current_price formatted with two decimals; and
the price 19.9 is rendered as the Arabic-digit rendering of 19.90. -/
theorem handleProduct_valid_renders (productsData : List Product) (indexParam : String)
    (i : ℕ) (hparse : jsParseInt indexParam = some (i : Int))
    (hi : i < productsData.length) :
    (handleProductRequest productsData indexParam).status = 200 ∧
    ("/images/" ++ imageFileName (productsData.get ⟨i, hi⟩)).data <:+:
      (handleProductRequest productsData indexParam).body.data ∧
    (convertToArabicDigits (toFixed2 (productsData.get ⟨i, hi⟩).current_price)).data <:+:
      (handleProductRequest productsData indexParam).body.data ∧
    convertToArabicDigits (toFixed2 (19.9 : ℚ)) = convertToArabicDigits "19.90" := by
  rw [handleProduct_ok productsData indexParam i hparse hi]
  refine ⟨rfl, ?_, ?_, ?_⟩
  · refine ⟨htmlTemplatePre.data,
      (htmlTemplateMid ++
        convertToArabicDigits (toFixed2 (productsData.get ⟨i, hi⟩).current_price) ++
        htmlTemplatePost).data, ?_⟩
    simp [renderTemplate, String.data_append, List.append_assoc]
  · refine ⟨(htmlTemplatePre ++ ("/images/" ++ imageFileName (productsData.get ⟨i, hi⟩)) ++
      htmlTemplateMid).data, htmlTemplatePost.data, ?_⟩
    simp [renderTemplate, String.data_append, List.append_assoc]
  · have habs : |(19.9 : ℚ)| = (19.9 : ℚ) := by norm_num
    have hfl : Int.floor (|(19.9 : ℚ)| * 100 + 1 / 2) = 1990 := by
      rw [habs]
      norm_num [Int.floor_eq_iff]
    have hlt : ¬ ((19.9 : ℚ) < 0) := by norm_num
    simp only [toFixed2, hfl, hlt, if_false]
    decide

/-- Witness for C5: collection [prodX] (price 19.9), parameter 0. -/
theorem handleProduct_valid_renders_witness :
    jsParseInt "0" = some ((0 : ℕ) : Int) ∧ (0 : ℕ) < ([prodX] : List Product).length ∧
    (handleProductRequest [prodX] "0").status = 200 :=
  ⟨by decide, by decide,
    (handleProduct_valid_renders [prodX] "0" 0 (by decide) (by decide)).1⟩

/-- Facts about a digit character needed while tracing parseInt: it is
not whitespace, not a sign, and not a hexadecimal prefix letter. -/
theorem digitChars_facts (c : Char) (hc : c ∈ digitChars) :
    jsWhitespace c = false ∧ c ≠ '-' ∧ c ≠ '+' := by
  simp only [digitChars, List.mem_cons, List.not_mem_nil, or_false] at hc
  rcases hc with rfl | rfl | rfl | rfl | rfl | rfl | rfl | rfl | rfl | rfl <;>
    exact ⟨rfl, by decide, by decide⟩

/-- parseInt on a string that starts with a digit and does not carry a
hexadecimal prefix: the value of the longest leading run of decimal
digits. -/
theorem jsParseInt_digit_head (s : String)
    (hne : s.data.takeWhile (fun c => decide (c ∈ digitChars)) ≠ [])
    (hnx : ¬ ∃ rest : List Char,
      s.data = '0' :: 'x' :: rest ∨ s.data = '0' :: 'X' :: rest) :
    jsParseInt s =
      some ((decDigitsVal (s.data.takeWhile (fun c => decide (c ∈ digitChars))) : ℕ) : Int) := by
  rcases hd : s.data with _ | ⟨c, rest⟩
  · rw [hd] at hne
    simp at hne
  · rw [hd] at hne hnx
    have hcd : c ∈ digitChars := by
      by_contra hc
      simp [List.takeWhile_cons, hc] at hne
    obtain ⟨hws, hminus, hplus⟩ := digitChars_facts c hcd
    have hdrop : (c :: rest).dropWhile jsWhitespace = c :: rest := by
      rw [List.dropWhile_cons, hws]
      simp
    rw [jsParseInt.eq_def, hd, hdrop]
    split
    · next heq => exact absurd (List.head_eq_of_cons_eq heq) hminus
    · next heq => exact absurd (List.head_eq_of_cons_eq heq) hplus
    · rw [parseIntAfterSign.eq_def]
      split
      · next heq => exact absurd ⟨_, Or.inl heq⟩ hnx
      · next heq => exact absurd ⟨_, Or.inr heq⟩ hnx
      · simp only [parseDec]
        rw [if_neg hne, one_mul]

/-- Counterexample for C10: the parameter 0x begins with the decimal digit
run 0, which parses to the valid index 0, yet the handler answers 404
(parseInt treats a leading 0x as a hexadecimal prefix and yields NaN on
0x), so the page of product 0 is not served. -/
theorem handleProduct_hex_param_404 :
    "0x".data.takeWhile (fun c => decide (c ∈ digitChars)) = ['0'] ∧
    decDigitsVal ['0'] = 0 ∧ 0 < ([prodA] : List Product).length ∧
    handleProductRequest [prodA] "0x" = { status := 404, body := "Product not found" } :=
  ⟨by decide, by decide, by decide, by decide⟩

/-- C10 as amended: when the parameter begins with a decimal digit run
whose value i is a valid index, and the parameter does not begin with the
hexadecimal prefix 0x or 0X, the handler serves the rendered page of
product i, trailing non-digit characters notwithstanding. -/
theorem handleProduct_leading_digits (productsData : List Product) (indexParam : String)
    (hne : indexParam.data.takeWhile (fun c => decide (c ∈ digitChars)) ≠ [])
    (hnx : ¬ ∃ rest : List Char,
      indexParam.data = '0' :: 'x' :: rest ∨ indexParam.data = '0' :: 'X' :: rest)
    (hlen : decDigitsVal (indexParam.data.takeWhile (fun c => decide (c ∈ digitChars))) <
      productsData.length) :
    handleProductRequest productsData indexParam =
      { status := 200,
        body := renderTemplate
          ("/images/" ++ imageFileName (productsData.get
            ⟨decDigitsVal (indexParam.data.takeWhile (fun c => decide (c ∈ digitChars))), hlen⟩))
          (convertToArabicDigits (toFixed2 ((productsData.get
            ⟨decDigitsVal (indexParam.data.takeWhile (fun c => decide (c ∈ digitChars))), hlen⟩)).current_price)) } :=
  handleProduct_ok productsData indexParam _ (jsParseInt_digit_head indexParam hne hnx) hlen

/-- Witness for C10 as amended: six records, parameter 5abc, served as
index 5. -/
theorem handleProduct_leading_digits_witness :
    "5abc".data.takeWhile (fun c => decide (c ∈ digitChars)) ≠ [] ∧
    decDigitsVal ("5abc".data.takeWhile (fun c => decide (c ∈ digitChars))) <
      (List.replicate 6 prodA).length ∧
    handleProductRequest (List.replicate 6 prodA) "5abc" =
      { status := 200,
        body := renderTemplate
          ("/images/" ++ imageFileName ((List.replicate 6 prodA).get
            ⟨decDigitsVal ("5abc".data.takeWhile (fun c => decide (c ∈ digitChars))), by decide⟩))
          (convertToArabicDigits (toFixed2 (((List.replicate 6 prodA).get
            ⟨decDigitsVal ("5abc".data.takeWhile (fun c => decide (c ∈ digitChars))), by decide⟩)).current_price)) } :=
  ⟨by decide, by decide,
    handleProduct_leading_digits (List.replicate 6 prodA) "5abc" (by decide)
      (by
        rintro ⟨rest, h | h⟩ <;>
          · rw [show "5abc".data = ['5', 'a', 'b', 'c'] from rfl] at h
            injection h with h1 h2
            exact absurd h1 (by decide))
      (by decide)⟩


/-! ## C9: completion protocol of the worker pool -/

theorem doneCount_eq_length_doneIds (trace : List WorkerEvent) :
    doneCount trace = (doneIds trace).length := by
  simp [doneCount, doneIds, doneEvents]

theorem mem_doneIds (trace : List WorkerEvent) (w : ℕ) :
    w ∈ doneIds trace ↔ (w, "DONE") ∈ trace := by
  constructor
  · intro hw
    obtain ⟨e, he, hfst⟩ := List.mem_map.mp hw
    obtain ⟨hmem, hdone⟩ := List.mem_filter.mp he
    have h2 : e.2 = "DONE" := by simpa using hdone
    have : e = (w, "DONE") := by
      cases e
      simp_all
    rwa [this] at hmem
  · intro hw
    exact List.mem_map.mpr ⟨(w, "DONE"), List.mem_filter.mpr ⟨hw, by simp⟩, rfl⟩

theorem doneIds_nodup (W : ℕ) (trace : List WorkerEvent)
    (hids : ∀ e ∈ trace, e.1 < W)
    (honce : ∀ w, w < W →
      (trace.filter (fun e => e.1 == w && e.2 == "DONE")).length ≤ 1) :
    (doneIds trace).Nodup := by
  rw [List.nodup_iff_count_le_one]
  intro a
  have hc : (doneIds trace).count a =
      (trace.filter (fun e => e.1 == a && e.2 == "DONE")).length := by
    rw [doneIds, doneEvents, List.count_eq_countP, List.countP_map,
      List.countP_filter, ← List.countP_eq_length_filter]
    congr 1
  rw [hc]
  by_cases ha : a < W
  · exact honce a ha
  · have : trace.filter (fun e => e.1 == a && e.2 == "DONE") = [] := by
      rw [List.filter_eq_nil_iff]
      intro e he
      have := hids e he
      simp only [Bool.and_eq_true, beq_iff_eq, not_and]
      intro hfst
      omega
    simp [this]

/-- C9: the workerPromise resolves only once the DONE count has reached
the number of spawned workers.  Provided each spawned worker posts DONE at
most once and every event comes from a spawned worker, resolution implies
a DONE from every spawned worker was received; and if some spawned worker
never posts DONE, no trace whatsoever resolves the wait (there is no
timeout), so the server-stop and persist steps are never reached. -/
theorem awaitAll_requires_every_done (W : ℕ) (trace : List WorkerEvent)
    (hids : ∀ e ∈ trace, e.1 < W)
    (honce : ∀ w, w < W →
      (trace.filter (fun e => e.1 == w && e.2 == "DONE")).length ≤ 1) :
    (awaitResolved W trace → ∀ w, w < W → (w, "DONE") ∈ trace) ∧
    (∀ w0, w0 < W → (w0, "DONE") ∉ trace → ¬ awaitResolved W trace) := by
  have hkey : ∀ t, t <+: trace → doneCount t = W →
      ∀ w, w < W → (w, "DONE") ∈ t := by
    intro t hpre hcount w hw
    have hsub : List.Sublist t trace := hpre.sublist
    have hsubIds : List.Sublist (doneIds t) (doneIds trace) :=
      (hsub.filter _).map _
    have hnodup : (doneIds t).Nodup :=
      (doneIds_nodup W trace hids honce).sublist hsubIds
    have hlt : ∀ x ∈ doneIds t, x < W := by
      intro x hx
      have : (x, "DONE") ∈ t := (mem_doneIds t x).mp hx
      exact hids _ (hsub.subset this)
    have hlen : (doneIds t).length = W := by
      rw [← doneCount_eq_length_doneIds, hcount]
    have hsubFin : (doneIds t).toFinset ⊆ Finset.range W := by
      intro x hx
      exact Finset.mem_range.mpr (hlt x (List.mem_toFinset.mp hx))
    have hcard : (doneIds t).toFinset.card = W := by
      rw [List.toFinset_card_of_nodup hnodup, hlen]
    have heq : Finset.range W = (doneIds t).toFinset :=
      (Finset.eq_of_subset_of_card_le hsubFin (by simp [hcard])).symm
    have hwmem : w ∈ (doneIds t).toFinset := by
      rw [← heq]
      exact Finset.mem_range.mpr hw
    exact (mem_doneIds t w).mp (List.mem_toFinset.mp hwmem)
  constructor
  · rintro ⟨t, hpre, hcount⟩ w hw
    exact hpre.sublist.subset (hkey t hpre hcount w hw)
  · rintro w0 hw0 hnot ⟨t, hpre, hcount⟩
    exact hnot (hpre.sublist.subset (hkey t hpre hcount w0 hw0))

/-- Witness for C9: one worker, a trace consisting of its DONE message. -/
theorem awaitAll_requires_every_done_witness :
    (∀ e ∈ [((0 : ℕ), "DONE")], e.1 < 1) ∧
    (∀ w, w < 1 →
      (([((0 : ℕ), "DONE")] : List WorkerEvent).filter
        (fun e => e.1 == w && e.2 == "DONE")).length ≤ 1) ∧
    ((awaitResolved 1 [((0 : ℕ), "DONE")] →
      ∀ w, w < 1 → (w, "DONE") ∈ [((0 : ℕ), "DONE")]) ∧
    (∀ w0, w0 < 1 → (w0, "DONE") ∉ [((0 : ℕ), "DONE")] →
      ¬ awaitResolved 1 [((0 : ℕ), "DONE")])) :=
  ⟨by decide, by decide,
    awaitAll_requires_every_done 1 [((0 : ℕ), "DONE")] (by decide) (by decide)⟩


/-! ## C3 and C8: the round-robin work partitioner -/

theorem map_getD_range (chunks : List (List α)) :
    (List.range chunks.length).map (fun j => chunks.getD j []) = chunks := by
  apply List.ext_get
  · simp
  · intro n h1 h2
    simp only [List.get_map, List.get_range]
    rw [List.getD_eq_get]

theorem pushAt_length (chunks : List (List α)) (i : ℕ) (x : α) :
    (pushAt chunks i x).length = chunks.length := by
  simp [pushAt]

theorem getD_pushAt_eq (chunks : List (List α)) (i : ℕ) (x : α) (h : i < chunks.length) :
    (pushAt chunks i x).getD i [] = chunks.getD i [] ++ [x] := by
  rw [pushAt, List.getD_eq_get _ _ (by simpa using h), List.get_set_eq]

theorem getD_pushAt_ne (chunks : List (List α)) (i j : ℕ) (x : α) (hij : i ≠ j) :
    (pushAt chunks i x).getD j [] = chunks.getD j [] := by
  rw [pushAt, List.getD_eq_getElem?_getD, List.getElem?_set_ne hij,
    ← List.getD_eq_getElem?_getD]

theorem distribRR_char (K : ℕ) (l : List α) :
    ∀ (i : ℕ) (chunks : List (List α)), chunks.length = K →
      distribRR K l i chunks =
        (List.range K).map (fun j => chunks.getD j [] ++ modSlice K j i l) := by
  induction l with
  | nil =>
    intro i chunks hlen
    subst hlen
    simp only [distribRR, modSlice, List.append_nil]
    exact (map_getD_range chunks).symm
  | cons x xs ih =>
    intro i chunks hlen
    rw [distribRR, ih (i + 1) _ (by rw [pushAt_length, hlen])]
    apply List.map_congr_left
    intro j hj
    have hjK : j < K := List.mem_range.mp hj
    have hK : 0 < K := by omega
    by_cases hcase : i % K = j
    · rw [← hcase, getD_pushAt_eq _ _ _ (by rw [hlen]; exact Nat.mod_lt i hK)]
      rw [hcase]
      simp only [modSlice, if_pos hcase]
      simp [List.append_assoc]
    · rw [getD_pushAt_ne _ _ _ _ hcase]
      simp only [modSlice, if_neg hcase]

theorem chunkArray_chunks (pd : List Product) (array : List Product) (K : ℕ) :
    chunkArray pd array K =
      (List.range K).map (fun j => modSlice K j 0 (array.map (mkWorkItem pd))) := by
  rw [chunkArray, distribRR_char K _ 0 _ (List.length_replicate K [])]
  apply List.map_congr_left
  intro j hj
  have : (List.replicate K ([] : List WorkItem)).getD j [] = [] := by
    rcases Nat.lt_or_ge j K with h | h
    · rw [List.getD_eq_get _ _ (by simpa using h), List.get_replicate]
    · rw [List.getD_eq_getElem?_getD, List.getElem?_eq_none (by simpa using h)]
      rfl
  rw [this, List.nil_append]

theorem modSlice_append (K j : ℕ) (l₁ : List α) :
    ∀ (l₂ : List α) (i : ℕ),
      modSlice K j i (l₁ ++ l₂) = modSlice K j i l₁ ++ modSlice K j (i + l₁.length) l₂ := by
  induction l₁ with
  | nil => intro l₂ i; simp [modSlice]
  | cons x xs ih =>
    intro l₂ i
    rw [List.cons_append]
    rw [show modSlice K j i (x :: (xs ++ l₂)) =
      if i % K = j then x :: modSlice K j (i + 1) (xs ++ l₂)
      else modSlice K j (i + 1) (xs ++ l₂) from rfl]
    rw [show modSlice K j i (x :: xs) =
      if i % K = j then x :: modSlice K j (i + 1) xs
      else modSlice K j (i + 1) xs from rfl]
    rw [ih]
    have harith : i + 1 + xs.length = i + (x :: xs).length := by
      rw [List.length_cons]
      omega
    rw [harith]
    by_cases h : i % K = j
    · rw [if_pos h, if_pos h, List.cons_append]
    · rw [if_neg h, if_neg h]

theorem modSlice_head_aux (K j : ℕ) (hj : j < K) (l : List α) :
    ∀ i : ℕ, i ≤ j → (modSlice K j i l).head? = l[(j - i)]? := by
  induction l with
  | nil => intro i _; simp [modSlice]
  | cons x xs ih =>
    intro i hij
    have him : i % K = i := Nat.mod_eq_of_lt (lt_of_le_of_lt hij hj)
    simp only [modSlice, him]
    by_cases h : i = j
    · subst h
      rw [if_pos rfl]
      simp
    · rw [if_neg h, ih (i + 1) (by omega)]
      have hsub : j - i = (j - (i + 1)) + 1 := by omega
      rw [hsub, List.getElem?_cons_succ]

theorem modSlice_head (K j : ℕ) (hj : j < K) (l : List α) :
    (modSlice K j 0 l).head? = l[j]? := by
  simpa using modSlice_head_aux K j hj l 0 (Nat.zero_le j)

theorem modSlice_short (K j : ℕ) (hj : j < K) (l : List α) :
    ∀ i : ℕ, i + l.length ≤ K →
      modSlice K j i l = if i ≤ j then (l[(j - i)]?).toList else [] := by
  induction l with
  | nil =>
    intro i _
    simp [modSlice]
  | cons x xs ih =>
    intro i hle
    have hiK : i < K := by
      simp only [List.length_cons] at hle
      omega
    have him : i % K = i := Nat.mod_eq_of_lt hiK
    simp only [modSlice, him]
    by_cases h : i = j
    · subst h
      rw [if_pos rfl, if_pos (le_refl i)]
      have hrest : modSlice K i (i + 1) xs = [] := by
        rw [ih (i + 1) (by simp only [List.length_cons] at hle; omega)]
        rw [if_neg (by omega)]
      rw [hrest]
      simp
    · rw [if_neg h, ih (i + 1) (by simp only [List.length_cons] at hle; omega)]
      by_cases h2 : i ≤ j
      · have hlt : i < j := lt_of_le_of_ne h2 h
        rw [if_pos (by omega : i + 1 ≤ j), if_pos h2]
        have hsub : j - i = (j - (i + 1)) + 1 := by omega
        rw [hsub, List.getElem?_cons_succ]
      · rw [if_neg (by omega), if_neg h2]

theorem modSlice_tail_aux (K j : ℕ) (hj : j < K) (l : List α) :
    ∀ i : ℕ, i ≤ j →
      (modSlice K j i l).tail = modSlice K j (j + 1) (l.drop (j - i + 1)) := by
  induction l with
  | nil => intro i _; simp [modSlice]
  | cons x xs ih =>
    intro i hij
    have him : i % K = i := Nat.mod_eq_of_lt (lt_of_le_of_lt hij hj)
    simp only [modSlice, him]
    by_cases h : i = j
    · subst h
      rw [if_pos rfl]
      simp
    · rw [if_neg h, ih (i + 1) (by omega)]
      have hsub : j - i + 1 = (j - (i + 1) + 1) + 1 := by omega
      rw [hsub, List.drop_succ_cons]

theorem modSlice_shift (K j : ℕ) (l : List α) :
    ∀ i : ℕ, modSlice K j (i + K) l = modSlice K j i l := by
  induction l with
  | nil => intro i; rfl
  | cons x xs ih =>
    intro i
    have h1 : (i + K) % K = i % K := Nat.add_mod_right i K
    simp only [modSlice, h1]
    have h2 : i + K + 1 = i + 1 + K := by omega
    rw [h2, ih]

theorem modSlice_tail (K j : ℕ) (hj : j < K) (l : List α) :
    (modSlice K j 0 l).tail = modSlice K j 0 (l.drop K) := by
  rw [modSlice_tail_aux K j hj l 0 (Nat.zero_le j), Nat.sub_zero]
  rcases le_or_lt K l.length with hKl | hKl
  · have hsplit : l.drop (j + 1) = ((l.drop (j + 1)).take (K - (j + 1))) ++ l.drop K := by
      conv_lhs => rw [← List.take_append_drop (K - (j + 1)) (l.drop (j + 1))]
      rw [List.drop_drop]
      congr 2
      omega
    rw [hsplit, modSlice_append]
    have hlen1 : ((l.drop (j + 1)).take (K - (j + 1))).length = K - (j + 1) := by
      rw [List.length_take, List.length_drop]
      omega
    have hm1 : modSlice K j (j + 1) ((l.drop (j + 1)).take (K - (j + 1))) = [] := by
      rw [modSlice_short K j hj _ (j + 1) (by rw [hlen1]; omega)]
      rw [if_neg (by omega)]
    rw [hm1, hlen1, List.nil_append]
    have harith : j + 1 + (K - (j + 1)) = 0 + K := by omega
    rw [harith, modSlice_shift]
  · have h1 : l.drop K = [] := List.drop_eq_nil_of_le (by omega)
    have h2 : modSlice K j (j + 1) (l.drop (j + 1)) = [] := by
      rw [modSlice_short K j hj _ (j + 1) (by rw [List.length_drop]; omega)]
      rw [if_neg (by omega)]
    rw [h1, h2]
    rfl

theorem filterMap_congr_mem (l : List α) (f g : α → Option β)
    (h : ∀ a ∈ l, f a = g a) : l.filterMap f = l.filterMap g := by
  induction l with
  | nil => rfl
  | cons x xs ih =>
    rw [List.filterMap_cons, List.filterMap_cons, h x (by simp),
      ih (fun a ha => h a (by simp [ha]))]

theorem range_filterMap_getElem (l : List α) (K : ℕ) :
    (List.range K).filterMap (fun j => l[j]?) = l.take K := by
  induction K with
  | zero => simp
  | succ k ih =>
    rw [List.range_succ, List.filterMap_append, ih, List.take_succ]
    cases h : l[k]? <;> simp [h]

theorem roundRobinMerge_modSlice (K : ℕ) (hK : 0 < K) :
    ∀ (n : ℕ) (l : List α), l.length ≤ n →
      roundRobinMerge ((List.range K).map (fun j => modSlice K j 0 l)) = l := by
  intro n
  induction n with
  | zero =>
    intro l hl
    have hnil : l = [] := List.eq_nil_of_length_eq_zero (by omega)
    subst hnil
    rw [roundRobinMerge.eq_def, dif_pos (by simp [modSlice])]
  | succ n ih =>
    intro l hl
    rcases l with _ | ⟨x, xs⟩
    · rw [roundRobinMerge.eq_def, dif_pos (by simp [modSlice])]
    · have hnonempty :
          ¬ (((List.range K).map (fun j => modSlice K j 0 (x :: xs))).all List.isEmpty = true) := by
        intro hall
        have h0 := (List.all_eq_true.mp hall) (modSlice K 0 0 (x :: xs))
          (List.mem_map.mpr ⟨0, List.mem_range.mpr hK, rfl⟩)
        simp [modSlice, Nat.zero_mod] at h0
      rw [roundRobinMerge.eq_def, dif_neg hnonempty]
      have hheads : ((List.range K).map (fun j => modSlice K j 0 (x :: xs))).filterMap
          List.head? = (x :: xs).take K := by
        rw [List.filterMap_map]
        exact (filterMap_congr_mem (List.range K) _ (fun j => (x :: xs)[j]?)
          (fun j hj => modSlice_head K j (List.mem_range.mp hj) _)).trans
          (range_filterMap_getElem _ K)
      have htails : ((List.range K).map (fun j => modSlice K j 0 (x :: xs))).map List.tail
          = (List.range K).map (fun j => modSlice K j 0 ((x :: xs).drop K)) := by
        rw [List.map_map]
        apply List.map_congr_left
        intro j hj
        exact modSlice_tail K j (List.mem_range.mp hj) _
      rw [hheads, htails]
      have hdroplen : ((x :: xs).drop K).length ≤ n := by
        simp only [List.length_cons] at hl
        simp only [List.length_drop, List.length_cons]
        omega
      rw [ih ((x :: xs).drop K) hdroplen]
      exact List.take_append_drop K (x :: xs)


theorem modSlice_singleton (K j n : ℕ) (x : α) :
    modSlice K j n [x] = if n % K = j then [x] else [] := by
  by_cases h : n % K = j <;> simp [modSlice, h]

theorem succ_div_mod_ite (K j n : ℕ) (hK : 0 < K) (hj : j < K) :
    n / K + (if j < n % K then 1 else 0) + (if n % K = j then 1 else 0)
      = (n + 1) / K + (if j < (n + 1) % K then 1 else 0) := by
  have hdm := Nat.div_add_mod n K
  have hmlt : n % K < K := Nat.mod_lt n hK
  rcases Nat.lt_or_ge (n % K + 1) K with hr | hr
  · have hmod : (n + 1) % K = n % K + 1 := by
      conv_lhs => rw [← hdm]
      rw [show K * (n / K) + n % K + 1 = (n % K + 1) + K * (n / K) from by omega]
      rw [Nat.add_mul_mod_self_left]
      exact Nat.mod_eq_of_lt hr
    have hdiv : (n + 1) / K = n / K := by
      conv_lhs => rw [← hdm]
      rw [show K * (n / K) + n % K + 1 = (n % K + 1) + K * (n / K) from by omega]
      rw [Nat.add_mul_div_left _ _ hK, Nat.div_eq_of_lt hr, Nat.zero_add]
    rw [hmod, hdiv]
    split_ifs <;> omega
  · have hreq : n % K + 1 = K := by omega
    have hmod : (n + 1) % K = 0 := by
      conv_lhs => rw [← hdm]
      rw [show K * (n / K) + n % K + 1 = K * (n / K + 1) from by rw [Nat.mul_add]; omega]
      exact Nat.mul_mod_right K _
    have hdiv : (n + 1) / K = n / K + 1 := by
      conv_lhs => rw [← hdm]
      rw [show K * (n / K) + n % K + 1 = K * (n / K + 1) from by rw [Nat.mul_add]; omega]
      exact Nat.mul_div_cancel_left _ hK
    rw [hmod, hdiv]
    split_ifs <;> omega

theorem modSlice_length (K j : ℕ) (hK : 0 < K) (hj : j < K) (l : List α) :
    (modSlice K j 0 l).length = l.length / K + (if j < l.length % K then 1 else 0) := by
  induction l using List.reverseRecOn with
  | nil => simp [modSlice]
  | append_singleton l x ih =>
    rw [modSlice_append, List.length_append, ih, List.length_append]
    rw [Nat.zero_add, modSlice_singleton, apply_ite List.length]
    simp only [List.length_cons, List.length_nil, List.length_singleton]
    exact succ_div_mod_ite K j l.length hK hj

theorem modSlice_enumFrom (K j : ℕ) (l : List α) :
    ∀ i : ℕ, modSlice K j i l =
      ((List.enumFrom i l).filter (fun e => decide (e.1 % K = j))).map Prod.snd := by
  induction l with
  | nil => intro i; rfl
  | cons x xs ih =>
    intro i
    rw [show List.enumFrom i (x :: xs) = (i, x) :: List.enumFrom (i + 1) xs from rfl]
    rw [List.filter_cons]
    rw [show modSlice K j i (x :: xs) = if i % K = j then x :: modSlice K j (i + 1) xs
      else modSlice K j (i + 1) xs from rfl]
    by_cases h : i % K = j
    · rw [if_pos h, if_pos (by simpa using h), List.map_cons, ih]
    · rw [if_neg h, if_neg (by simpa using h), ih]

theorem mem_modSlice (K j : ℕ) (l : List α) :
    ∀ (i : ℕ) (a : α), a ∈ modSlice K j i l → a ∈ l := by
  induction l with
  | nil => intro i a h; simp [modSlice] at h
  | cons x xs ih =>
    intro i a h
    rw [show modSlice K j i (x :: xs) = if i % K = j then x :: modSlice K j (i + 1) xs
      else modSlice K j (i + 1) xs from rfl] at h
    by_cases hc : i % K = j
    · rw [if_pos hc] at h
      rcases List.mem_cons.mp h with rfl | h2
      · exact List.mem_cons_self _ _
      · exact List.mem_cons_of_mem _ (ih (i + 1) a h2)
    · rw [if_neg hc] at h
      exact List.mem_cons_of_mem _ (ih (i + 1) a h)

theorem chunkArray_getD (productsData array : List Product) (K j : ℕ) (hj : j < K) :
    (chunkArray productsData array K).getD j [] =
      modSlice K j 0 (array.map (mkWorkItem productsData)) := by
  rw [chunkArray_chunks]
  rw [List.getD_eq_getElem _ _ (by simpa using hj)]
  simp

/-- C3: partitioning N items over K workers (1 ≤ K ≤ N) produces exactly K
groups; the group sizes differ pairwise by at most 1; group j holds, in
order, exactly the items whose position i in the input satisfies
i % K = j (as work items); and re-merging the groups round-robin yields
back the input list in its original order. -/
theorem chunkArray_spec (productsData array : List Product) (K : ℕ)
    (hK : 1 ≤ K) (hKN : K ≤ array.length) :
    (chunkArray productsData array K).length = K ∧
    (∀ j1 j2 : ℕ, j1 < K → j2 < K →
      ((chunkArray productsData array K).getD j1 []).length ≤
        ((chunkArray productsData array K).getD j2 []).length + 1) ∧
    (∀ j : ℕ, j < K →
      (chunkArray productsData array K).getD j [] =
        (array.enum.filter (fun e => decide (e.1 % K = j))).map
          (fun e => mkWorkItem productsData e.2)) ∧
    (roundRobinMerge (chunkArray productsData array K)).map WorkItem.product = array := by
  have hK0 : 0 < K := hK
  refine ⟨?_, ?_, ?_, ?_⟩
  · rw [chunkArray_chunks]
    simp
  · intro j1 j2 h1 h2
    rw [chunkArray_getD _ _ _ _ h1, chunkArray_getD _ _ _ _ h2,
      modSlice_length K j1 hK0 h1, modSlice_length K j2 hK0 h2]
    split_ifs <;> omega
  · intro j hj
    rw [chunkArray_getD _ _ _ _ hj, modSlice_enumFrom]
    rw [show List.enumFrom 0 (array.map (mkWorkItem productsData)) =
      (List.enumFrom 0 array).map (Prod.map id (mkWorkItem productsData)) from
      List.enumFrom_map 0 array (mkWorkItem productsData)]
    rw [List.filter_map, List.map_map]
    rfl
  · rw [chunkArray_chunks]
    rw [roundRobinMerge_modSlice K hK0 (array.map (mkWorkItem productsData)).length
      (array.map (mkWorkItem productsData)) (le_refl _)]
    rw [List.map_map]
    have hcomp : (WorkItem.product ∘ mkWorkItem productsData) = id := by
      funext item
      rfl
    rw [hcomp, List.map_id]

/-- Witness for C3: two pending records over two workers. -/
theorem chunkArray_spec_witness :
    (1 ≤ 2 ∧ 2 ≤ ([prodA, prodC] : List Product).length) ∧
    (chunkArray [prodA, prodC] [prodA, prodC] 2).length = 2 :=
  ⟨⟨by decide, by decide⟩,
    (chunkArray_spec [prodA, prodC] [prodA, prodC] 2 (by decide) (by decide)).1⟩

theorem findIdxJS_mem (p : α → Bool) (a : α) :
    ∀ l : List α, a ∈ l → p a = true → ∃ n, findIdxJS p l = some n := by
  intro l
  induction l with
  | nil => intro h _; simp at h
  | cons x xs ih =>
    intro hmem hpa
    by_cases hx : p x
    · exact ⟨0, by simp [findIdxJS, hx]⟩
    · rcases List.mem_cons.mp hmem with rfl | h2
      · exact absurd hpa (by simpa using hx)
      · obtain ⟨n, hn⟩ := ih h2 hpa
        exact ⟨n + 1, by simp [findIdxJS, hx, hn]⟩

theorem findIdxJS_some (p : α → Bool) :
    ∀ (l : List α) (n : ℕ), findIdxJS p l = some n →
      ∃ a, l[n]? = some a ∧ p a = true := by
  intro l
  induction l with
  | nil => intro n h; simp [findIdxJS] at h
  | cons x xs ih =>
    intro n h
    by_cases hx : p x
    · rw [findIdxJS, if_pos hx] at h
      cases h
      exact ⟨x, by simp, hx⟩
    · rw [findIdxJS, if_neg hx] at h
      obtain ⟨k, hk, hkn⟩ := Option.map_eq_some'.mp h
      subst hkn
      obtain ⟨a, ha, hpa⟩ := ih k hk
      exact ⟨a, by simpa using ha, hpa⟩

theorem sameKey_iff (p q : Product) :
    sameKey p q = true ↔
      p.productCode = q.productCode ∧
        (p.variation_suffix = q.variation_suffix ∨
          (truthySuffix p.variation_suffix = false ∧
            truthySuffix q.variation_suffix = false)) := by
  simp [sameKey, Bool.and_eq_true, Bool.or_eq_true, beq_iff_eq, Bool.not_eq_true']

theorem sameKey_refl (a : Product) : sameKey a a = true := by
  rw [sameKey_iff]
  exact ⟨rfl, Or.inl rfl⟩

theorem sameKey_symm {a b : Product} (h : sameKey a b = true) : sameKey b a = true := by
  rw [sameKey_iff] at *
  obtain ⟨hc, hs⟩ := h
  refine ⟨hc.symm, ?_⟩
  rcases hs with he | ⟨f1, f2⟩
  · exact Or.inl he.symm
  · exact Or.inr ⟨f2, f1⟩

theorem sameKey_trans {a b c : Product} (h1 : sameKey a b = true)
    (h2 : sameKey b c = true) : sameKey a c = true := by
  rw [sameKey_iff] at *
  obtain ⟨hc1, hs1⟩ := h1
  obtain ⟨hc2, hs2⟩ := h2
  refine ⟨hc1.trans hc2, ?_⟩
  rcases hs1 with he1 | ⟨f1, f2⟩ <;> rcases hs2 with he2 | ⟨f3, f4⟩
  · exact Or.inl (he1.trans he2)
  · exact Or.inr ⟨by rw [he1]; exact f3, f4⟩
  · exact Or.inr ⟨f1, by rw [← he2]; exact f2⟩
  · exact Or.inr ⟨f1, f4⟩

/-- C8: every work item handed to a worker is annotated with a position n
of the full collection whose record matches the item on the identity key
(productCode, variation suffix up to both being absent or empty); when
identity keys are unique in the full collection, n is the unique such
position, and the record there is the item itself. -/
theorem chunkArray_annotates_original_index (productsData array : List Product) (K : ℕ)
    (hsub : ∀ p ∈ array, p ∈ productsData)
    (huniq : ∀ (i j : ℕ) (hi : i < productsData.length) (hj : j < productsData.length),
      sameKey (productsData.get ⟨i, hi⟩) (productsData.get ⟨j, hj⟩) = true → i = j)
    (chunk : List WorkItem) (w : WorkItem)
    (hchunk : chunk ∈ chunkArray productsData array K) (hw : w ∈ chunk) :
    ∃ n : ℕ, w.index = (n : Int) ∧ productsData[n]? = some w.product ∧
      ∀ (m : ℕ) (hm : m < productsData.length),
        sameKey (productsData.get ⟨m, hm⟩) w.product = true → m = n := by
  rw [chunkArray_chunks] at hchunk
  obtain ⟨j, hjr, rfl⟩ := List.mem_map.mp hchunk
  have hw2 : w ∈ array.map (mkWorkItem productsData) := mem_modSlice K j _ 0 w hw
  obtain ⟨item, hitem, rfl⟩ := List.mem_map.mp hw2
  have hpd : item ∈ productsData := hsub item hitem
  obtain ⟨n, hn⟩ := findIdxJS_mem (fun p => sameKey p item) item productsData hpd
    (sameKey_refl item)
  obtain ⟨a, ha, hpa⟩ := findIdxJS_some _ productsData n hn
  have hnlen : n < productsData.length := by
    by_contra hcon
    rw [List.getElem?_eq_none (by omega)] at ha
    cases ha
  have hget : productsData.get ⟨n, hnlen⟩ = a := by
    have h2 := List.getElem?_eq_getElem hnlen
    rw [h2] at ha
    exact Option.some.inj ha
  have hkey_n : sameKey (productsData.get ⟨n, hnlen⟩) item = true := by
    rw [hget]
    exact hpa
  refine ⟨n, ?_, ?_, ?_⟩
  · show findIndexJS (fun p => sameKey p item) productsData = (n : Int)
    rw [findIndexJS, hn]
  · show productsData[n]? = some item
    obtain ⟨m0, hgetm0⟩ := List.mem_iff_get.mp hpd
    have hkey_m0 : sameKey (productsData.get ⟨m0.1, m0.isLt⟩) item = true := by
      rw [hgetm0]
      exact sameKey_refl item
    have hnm0 : n = m0.1 :=
      huniq n m0.1 hnlen m0.isLt (sameKey_trans hkey_n (sameKey_symm hkey_m0))
    rw [List.getElem?_eq_getElem hnlen]
    have : productsData.get ⟨n, hnlen⟩ = item := by
      rw [show (⟨n, hnlen⟩ : Fin productsData.length) = m0 from Fin.ext hnm0, hgetm0]
    rw [show productsData[n] = productsData.get ⟨n, hnlen⟩ from rfl, this]
  · intro m hm hkey
    exact huniq m n hm hnlen
      (sameKey_trans hkey (sameKey_symm hkey_n))

/-- Witness for C8: a one-record collection, its own pending list, one
worker. -/
theorem chunkArray_annotates_original_index_witness :
    (∀ p ∈ ([prodA] : List Product), p ∈ ([prodA] : List Product)) ∧
    (∃ n : ℕ, (mkWorkItem [prodA] prodA).index = (n : Int) ∧
      ([prodA] : List Product)[n]? = some (mkWorkItem [prodA] prodA).product ∧
      ∀ (m : ℕ) (hm : m < ([prodA] : List Product).length),
        sameKey (([prodA] : List Product).get ⟨m, hm⟩)
          (mkWorkItem [prodA] prodA).product = true → m = n) :=
  ⟨by decide,
    chunkArray_annotates_original_index [prodA] [prodA] 1 (by decide)
      (by
        intro i j hi hj _
        simp only [List.length_singleton] at hi hj
        omega)
      [mkWorkItem [prodA] prodA] (mkWorkItem [prodA] prodA)
      (by
        rw [show chunkArray [prodA] [prodA] 1 = [[mkWorkItem [prodA] prodA]] from rfl]
        exact List.mem_singleton.mpr rfl)
      (List.mem_singleton.mpr rfl)⟩

end PriceCards
